import Mathlib

/-!
Shallow embedding of `src/blockchain/src/main.rs` (repository `xoreo/random-rs`).

Modelling conventions:
* `u8` bytes are `Nat`s; a Rust `[u8; 32]` array is the subtype of `List Nat`
  of length 32 (`Hash`), so fixed-size array types keep their length invariant.
* `f64` fields (`amount`, `nonce`) are modelled by their 64-bit IEEE-754 bit
  pattern, a `Nat` below `2^64`; mutating such a field means storing a
  different bit pattern.  `u128` timestamps and `u32` indices are `Nat`s.
* `bincode::serialize` (default configuration: little-endian, fixed-width
  integers, `u64` length prefixes for sequences) is rendered concretely:
  fixed arrays are raw bytes, `f64` is its 8 bit-pattern bytes, `u128` is 16
  bytes, `Vec<u8>` and `String` are an 8-byte length followed by the bytes.
* the ed25519 primitives from `ed25519_dalek` are opaque cryptography: the
  embedding is parameterised by a `SigScheme` (sign, derive-public-key,
  verify); theorems assume only the properties of the real scheme that they
  need (64-byte signatures, round-trip success, signatures verify only the
  signed message).  `Signature::from_bytes` succeeds exactly on 64-byte
  inputs; the `.expect(...)` panic on other inputs is modelled by `none`.
* `Instant::now().elapsed().as_millis()` is modelled by a parameter giving
  the nanoseconds the runtime lets pass between the `now()` and the
  `elapsed()` call, floor-divided to milliseconds.
* Rust panics (`expect` on the empty-leaf-list reduction, on malformed
  signatures) make the embedded operation return `none` / `Option`-fail.
-/

namespace Blockchain

/-- `const HASH_SIZE: usize = 32` (main.rs line 11). -/
def HASH_SIZE : Nat := 32

/-- Byte length of an `ed25519_dalek::Signature`, checked by
`Signature::from_bytes`. -/
def SIGNATURE_LENGTH : Nat := 64

/-- `type Hash = [u8; HASH_SIZE]`: a 32-byte array, as a length-32 byte list. -/
abbrev Hash := { l : List Nat // l.length = HASH_SIZE }

/-- `type Address = Hash`. -/
abbrev Address := Hash

/-- The all-zero digest `[0; HASH_SIZE]`. -/
def zeroHash : Hash := ⟨List.replicate HASH_SIZE 0, List.length_replicate _ _⟩

/-- `enum Valid { Valid, Invalid }` (main.rs lines 15–19). -/
inductive Valid where
  | Valid
  | Invalid
deriving DecidableEq, Repr

/-- Little-endian fixed-width byte encoding of an unsigned integer, as
`bincode` writes `u32`/`u64`/`u128`/`f64`-bit-pattern fields: `encLE n v` is
the `n` bytes `v % 256, v / 256 % 256, …`. -/
def encLE : Nat → Nat → List Nat
  | 0, _ => []
  | n + 1, v => v % 256 :: encLE n (v / 256)

/-- Little-endian decoding, inverse of `encLE` below the width bound. -/
def decLE : List Nat → Nat
  | [] => 0
  | b :: bs => b + 256 * decLE bs

theorem length_encLE (n v : Nat) : (encLE n v).length = n := by
  induction n generalizing v with
  | zero => rfl
  | succ n ih => simp [encLE, ih]

theorem decLE_encLE (n v : Nat) : decLE (encLE n v) = v % 256 ^ n := by
  induction n generalizing v with
  | zero => simp [encLE, decLE, Nat.mod_one]
  | succ n ih =>
      have h : (256 : Nat) ^ (n + 1) = 256 * 256 ^ n := by ring
      rw [encLE, decLE, ih, h, Nat.mod_mul]

theorem encLE_inj {n a b : Nat} (ha : a < 256 ^ n) (hb : b < 256 ^ n)
    (h : encLE n a = encLE n b) : a = b := by
  have := congrArg decLE h
  rwa [decLE_encLE, decLE_encLE, Nat.mod_eq_of_lt ha, Nat.mod_eq_of_lt hb] at this

/-- `Instant::now().elapsed().as_millis()`: the timestamp every constructor
stores.  `elapsedNanos` is the nanoseconds the runtime lets pass between the
`Instant::now()` call and the immediately following `.elapsed()` call;
`as_millis` floor-divides to milliseconds. -/
def instantNowElapsedMillis (elapsedNanos : Nat) : Nat :=
  elapsedNanos / 1000000

/-- `struct User` (main.rs lines 25–32).  `public_key` is the 32 raw bytes of
an `ed25519_dalek::PublicKey`; `uid` is the UTF-8 bytes of the `String`. -/
structure User where
  address : Address
  timestamp : Nat
  nonce : Nat
  public_key : List Nat
  uid : List Nat
deriving DecidableEq, Repr

/-- `bincode::serialize` of a `User` (used by `impl Hashable for User`,
main.rs lines 230–236): raw 32 address bytes, 16-byte `u128` timestamp,
8-byte `f64` nonce bit pattern, length-prefixed public-key bytes,
length-prefixed UTF-8 string bytes. -/
def encodeUser (u : User) : List Nat :=
  u.address.val ++ encLE 16 u.timestamp ++ encLE 8 u.nonce ++
    encLE 8 u.public_key.length ++ u.public_key ++ encLE 8 u.uid.length ++ u.uid

/-- `impl Hashable for User { fn hash(&mut self) }` (main.rs lines 230–236):
replaces `address` with the digest of the user's serialization.  `H` is the
`blake3::hash` oracle. -/
def User.hashOp (H : List Nat → Hash) (u : User) : User :=
  { u with address := H (encodeUser u) }

/-- `User::new` (main.rs lines 35–45): builds the record with the all-zero
address, the elapsed-instant timestamp, a fresh nonce and the freshly
generated keypair's public key, then calls `hash()`.  The keypair generation
and key-file side effects are external; the resulting public-key bytes and
the nonce enter as parameters. -/
def User.new (H : List Nat → Hash) (elapsedNanos nonce : Nat)
    (public_key uid : List Nat) : User :=
  User.hashOp H
    { address := zeroHash
      timestamp := instantNowElapsedMillis elapsedNanos
      nonce := nonce
      public_key := public_key
      uid := uid }

/-- `struct Txn` (main.rs lines 95–103).  `amount` is the `f64` bit pattern,
`signature` the `Vec<u8>` signature bytes. -/
structure Txn where
  id : Hash
  sender : Address
  recipient : Address
  amount : Nat
  timestamp : Nat
  signature : List Nat
deriving DecidableEq, Repr

/-- `impl CanSerialize for Txn { fn to_bytes }` (main.rs lines 109–113),
i.e. `bincode::serialize` of the whole record: raw 32-byte `id`, `sender`,
`recipient`, 8-byte `f64` amount bit pattern, 16-byte `u128` timestamp, and
the `Vec<u8>` signature as an 8-byte length prefix plus its bytes. -/
def encodeTxn (t : Txn) : List Nat :=
  t.id.val ++ t.sender.val ++ t.recipient.val ++ encLE 8 t.amount ++
    encLE 16 t.timestamp ++ encLE 8 t.signature.length ++ t.signature

/-- The ed25519 primitives of `ed25519_dalek` used by the source, kept
opaque: `sign k m` are the signature bytes of keypair `k` (a `Nat` naming
the keypair) on message `m`, `pubOf k` the keypair's public key, and
`verify p m s` the boolean outcome of `PublicKey::verify`. -/
structure SigScheme where
  sign : Nat → List Nat → List Nat
  pubOf : Nat → Nat
  verify : Nat → List Nat → List Nat → Bool

/-- `impl Hashable for Txn { fn hash(&mut self) }` (main.rs lines 223–228):
replaces `id` with the digest of the record's serialization. -/
def Txn.hashOp (H : List Nat → Hash) (t : Txn) : Txn :=
  { t with id := H (encodeTxn t) }

/-- `Txn::new` (main.rs lines 116–127): all-zero id, the two users'
addresses, the amount, the elapsed-instant timestamp and an empty signature,
then `hash()`. -/
def Txn.new (H : List Nat → Hash) (elapsedNanos : Nat)
    (sender recipient : User) (amount : Nat) : Txn :=
  Txn.hashOp H
    { id := zeroHash
      sender := sender.address
      recipient := recipient.address
      amount := amount
      timestamp := instantNowElapsedMillis elapsedNanos
      signature := [] }

/-- `Txn::verify` (main.rs lines 130–143).  `Signature::from_bytes` succeeds
exactly on 64-byte inputs; on any other signature the source's
`.expect("Invalid signature")` panics, modelled by `none`.  Otherwise the
record is re-serialized with an emptied signature field and checked with the
given public key; a match is `Valid`, a mismatch `Invalid`. -/
def Txn.verify (E : SigScheme) (t : Txn) (key : Nat) : Option Valid :=
  if t.signature.length = SIGNATURE_LENGTH then
    if E.verify key (encodeTxn { t with signature := [] }) t.signature
    then some Valid.Valid
    else some Valid.Invalid
  else none

/-- `Txn::sign` (main.rs lines 146–150): serializes `self` as it currently
is (`self.to_bytes()`, signature field included) and stores the signature of
those bytes into the record. -/
def Txn.sign (E : SigScheme) (t : Txn) (k : Nat) : Txn :=
  { t with signature := E.sign k (encodeTxn t) }

/-- `struct Txns` (main.rs lines 153–157): a Merkle batch. -/
structure Txns where
  txns : List Txn
  merkle_root : Hash
deriving DecidableEq, Repr

/-- `Txns::new` (main.rs lines 160–165). -/
def Txns.new : Txns :=
  { txns := [], merkle_root := zeroHash }

/-- `Txns::add` (main.rs lines 167–169): push onto the ordered sequence. -/
def Txns.add (ts : Txns) (t : Txn) : Txns :=
  { ts with txns := ts.txns ++ [t] }

/-- `Txns::verify` (main.rs lines 171–173): the body is just
`Valid::Valid` — it inspects nothing (its comment says
"Just verify all of them", but no transaction is checked). -/
def Txns.verify (_ : Txns) : Valid :=
  Valid.Valid

/-- The pair-combination buffer of `calc_merkle_root_r` (main.rs lines
191–198): a 64-byte array whose first half is filled from `leaves[i]` and
whose second half is filled by the loop `for j in 0..leaves[i + 1].len()`
with `leaves[i][j]` — the source reads `leaves[i]` again, not
`leaves[i + 1]`, so the right node's bytes are never read.  Both nodes are
`[u8; 32]`, so the buffer is exactly `l ‖ l`. -/
def concatPair (l _r : Hash) : List Nat :=
  l.val ++ l.val

/-- One level of the reduction loop (main.rs lines 190–200): each adjacent
pair of nodes is combined through the (left-duplicating) buffer and hashed. -/
def combineLevel (H : List Nat → Hash) : List Hash → List Hash
  | l :: r :: rest => H (concatPair l r) :: combineLevel H rest
  | _ => []

/-- The odd-level padding of `calc_merkle_root_r` (main.rs lines 182–186):
if the level has odd length, the last node is pushed again.  (`last()` is
only reached on a non-empty level, so the default never materialises.) -/
def padEven (leaves : List Hash) : List Hash :=
  if leaves.length % 2 ≠ 0 then leaves ++ [leaves.getLast?.getD zeroHash]
  else leaves

theorem length_combineLevel (H : List Nat → Hash) :
    ∀ l : List Hash, (combineLevel H l).length = l.length / 2
  | [] => by simp [combineLevel]
  | [_] => by simp [combineLevel]
  | _ :: _ :: rest => by
      simp [combineLevel, length_combineLevel H rest]
      omega

theorem length_padEven (l : List Hash) :
    (padEven l).length = l.length + l.length % 2 := by
  unfold padEven
  split <;> simp <;> omega

/-- `Txns::calc_merkle_root_r` (main.rs lines 175–202).  A singleton level
is the root.  An empty level panics (`leaves.len() - 1` underflows / the
indexing fails), modelled by `none`.  Otherwise the level is padded to even
length by duplicating the last node, pairwise combined, and reduced
recursively. -/
def Txns.calc_merkle_root_r (H : List Nat → Hash) :
    (leaves : List Hash) → Option Hash
  | [] => none
  | [l] => some l
  | a :: b :: rest =>
      Txns.calc_merkle_root_r H (combineLevel H (padEven (a :: b :: rest)))
termination_by leaves => leaves.length
decreasing_by
  rw [length_combineLevel, length_padEven]
  simp
  omega

/-- `Txns::calc_merkle_root` (main.rs lines 204–208): maps the batch to its
ordered `id` leaves and stores the reduction's result into `merkle_root`;
`none` when the reduction panics (empty batch). -/
def Txns.calc_merkle_root (H : List Nat → Hash) (ts : Txns) : Option Txns :=
  match Txns.calc_merkle_root_r H (ts.txns.map Txn.id) with
  | some r => some { ts with merkle_root := r }
  | none => none

/-- `struct Block` (main.rs lines 238–246).  `nonce` is the `f64` bit
pattern, `index` the `u32`. -/
structure Block where
  hash : Hash
  prev_hash : Hash
  txns : Txns
  index : Nat
  timestamp : Nat
  nonce : Nat
deriving DecidableEq, Repr

/-- `bincode::serialize` of a `Txns` value (inside a block's serialization):
`u64` length prefix of the vector, each transaction's bytes in order, then
the raw 32-byte `merkle_root`. -/
def encodeTxns (ts : Txns) : List Nat :=
  encLE 8 ts.txns.length ++ (ts.txns.map encodeTxn).flatten ++ ts.merkle_root.val

/-- `bincode::serialize` of a `Block` (used by `impl Hashable for Block`,
main.rs lines 215–221). -/
def encodeBlock (b : Block) : List Nat :=
  b.hash.val ++ b.prev_hash.val ++ encodeTxns b.txns ++ encLE 4 b.index ++
    encLE 16 b.timestamp ++ encLE 8 b.nonce

/-- `impl Hashable for Block { fn hash(&mut self) }` (main.rs lines
215–221): replaces the `hash` field with the digest of the serialization. -/
def Block.hashOp (H : List Nat → Hash) (b : Block) : Block :=
  { b with hash := H (encodeBlock b) }

/-- `Block::new` (main.rs lines 248–260): all-zero hash, caller-supplied
`prev_hash`, batch and index, fresh nonce and elapsed-instant timestamp,
then `hash()`. -/
def Block.new (H : List Nat → Hash) (elapsedNanos nonce : Nat)
    (prev_hash : Hash) (txns : Txns) (index : Nat) : Block :=
  Block.hashOp H
    { hash := zeroHash
      prev_hash := prev_hash
      txns := txns
      index := index
      timestamp := instantNowElapsedMillis elapsedNanos
      nonce := nonce }

/-- `struct Blockchain` (main.rs lines 263–267). -/
structure Blockchain where
  blocks : List Block
  timestamp : Nat
deriving DecidableEq, Repr

/-- `Blockchain::new` (main.rs lines 269–275). -/
def Blockchain.new (elapsedNanos : Nat) : Blockchain :=
  { blocks := [], timestamp := instantNowElapsedMillis elapsedNanos }

/-- `Blockchain::add_block` (main.rs lines 277–279). -/
def Blockchain.add_block (c : Blockchain) (b : Block) : Blockchain :=
  { c with blocks := c.blocks ++ [b] }

/-! ### Unfolding equations and structural lemmas for the Merkle reduction -/

theorem calc_merkle_root_r_nil (H : List Nat → Hash) :
    Txns.calc_merkle_root_r H [] = none := by
  simp [Txns.calc_merkle_root_r]

theorem calc_merkle_root_r_singleton (H : List Nat → Hash) (l : Hash) :
    Txns.calc_merkle_root_r H [l] = some l := by
  simp [Txns.calc_merkle_root_r]

theorem calc_merkle_root_r_cons_cons (H : List Nat → Hash) (a b : Hash)
    (rest : List Hash) :
    Txns.calc_merkle_root_r H (a :: b :: rest) =
      Txns.calc_merkle_root_r H (combineLevel H (padEven (a :: b :: rest))) := by
  simp [Txns.calc_merkle_root_r]

theorem padEven_cons_cons (a b : Hash) (t : List Hash) :
    ∃ t', padEven (a :: b :: t) = a :: b :: t' := by
  unfold padEven
  split
  · exact ⟨t ++ [(a :: b :: t).getLast?.getD zeroHash], by simp⟩
  · exact ⟨t, rfl⟩

theorem head?_combineLevel (H : List Nat → Hash) (a b : Hash)
    (t : List Hash) :
    (combineLevel H (a :: b :: t)).head? = some (H (concatPair a b)) := by
  simp [combineLevel]

theorem exists_cons_cons {α : Type} :
    ∀ (l : List α), 2 ≤ l.length → ∃ a b t, l = a :: b :: t
  | a :: b :: t, _ => ⟨a, b, t, rfl⟩
  | [], h => by simp at h
  | [_], h => by simp at h

/-- The value of the recursive reduction is determined by the level's
length and its first node: the combination buffer never reads a right
node's bytes, so only first nodes propagate. -/
theorem calc_merkle_root_r_eq_of_head_eq (H : List Nat → Hash) (n : Nat) :
    ∀ l1 l2 : List Hash, l1.length = n → l2.length = n →
      l1.head? = l2.head? →
      Txns.calc_merkle_root_r H l1 = Txns.calc_merkle_root_r H l2 := by
  induction n using Nat.strong_induction_on with
  | _ n IH =>
    intro l1 l2 h1 h2 hh
    rcases n with _ | _ | m
    · rw [List.length_eq_zero.mp h1, List.length_eq_zero.mp h2]
    · obtain ⟨a, rfl⟩ := List.length_eq_one.mp h1
      obtain ⟨b, rfl⟩ := List.length_eq_one.mp h2
      simp at hh
      rw [hh]
    · obtain ⟨a, b, t1, rfl⟩ := exists_cons_cons l1 (by omega)
      obtain ⟨c, d, t2, rfl⟩ := exists_cons_cons l2 (by omega)
      rw [calc_merkle_root_r_cons_cons, calc_merkle_root_r_cons_cons]
      obtain ⟨t1', hp1⟩ := padEven_cons_cons a b t1
      obtain ⟨t2', hp2⟩ := padEven_cons_cons c d t2
      refine IH ((m + 2 + (m + 2) % 2) / 2) (by omega) _ _ ?_ ?_ ?_
      · rw [length_combineLevel, length_padEven, h1]
      · rw [length_combineLevel, length_padEven, h2]
      · rw [hp1, hp2, head?_combineLevel, head?_combineLevel]
        have ha : a = c := by simpa using hh
        simp [concatPair, ha]

/-- The reduction yields a digest on every non-empty level. -/
theorem calc_merkle_root_r_ne_none (H : List Nat → Hash) (n : Nat) :
    ∀ l : List Hash, l.length = n → l ≠ [] →
      Txns.calc_merkle_root_r H l ≠ none := by
  induction n using Nat.strong_induction_on with
  | _ n IH =>
    intro l hl hne
    rcases n with _ | _ | m
    · exact absurd (List.length_eq_zero.mp hl) hne
    · obtain ⟨a, rfl⟩ := List.length_eq_one.mp hl
      simp [calc_merkle_root_r_singleton]
    · obtain ⟨a, b, t, rfl⟩ := exists_cons_cons l (by omega)
      rw [calc_merkle_root_r_cons_cons]
      have hlen : (combineLevel H (padEven (a :: b :: t))).length =
          (m + 2 + (m + 2) % 2) / 2 := by
        rw [length_combineLevel, length_padEven, hl]
      refine IH ((m + 2 + (m + 2) % 2) / 2) (by omega) _ hlen ?_
      intro hcontra
      rw [hcontra] at hlen
      simp at hlen
      omega

/-! ### Helper lemmas about the transaction encoding -/

theorem txn_set_sig_self {t : Txn} (h : t.signature = []) :
    { t with signature := [] } = t := by
  cases t
  simp_all

/-- Two serializations of records that agree on `id`, `sender` and
`recipient` but store different `f64` amount bit patterns differ: the three
32-byte prefixes coincide and the fixed 8-byte amount bytes then disagree,
whatever follows. -/
theorem encodeTxn_ne_of_amount_ne {t : Txn} {a' : Nat} (s : List Nat)
    (h1 : t.amount < 2 ^ 64) (h2 : a' < 2 ^ 64) (h3 : a' ≠ t.amount) :
    encodeTxn { t with amount := a', signature := s } ≠ encodeTxn t := by
  intro h
  unfold encodeTxn at h
  simp only [List.append_assoc] at h
  have h' := List.append_cancel_left
    (List.append_cancel_left (List.append_cancel_left h))
  have hb : (256 : Nat) ^ 8 = 2 ^ 64 := by norm_num
  exact h3 (encLE_inj (n := 8) (hb ▸ h2) (hb ▸ h1)
    (List.append_inj_left h' (by rw [length_encLE, length_encLE])))

/-! ### Concrete instantiations of the opaque cryptography

`E0` is an idealised scheme used to exercise the theorems: the signature
packs the keypair and an injective encoding of the message into its first
byte (bytes are unbounded naturals in the model), so round-trip and
only-the-signed-message verification hold exactly.  `Esim` is a degenerate
scheme whose signature records only the message length; it is enough to
separate two byte sequences of different lengths. -/

/-- Injective packing of a byte list into one natural. -/
def encodeList : List Nat → Nat
  | [] => 0
  | a :: l => Nat.pair a (encodeList l) + 1

theorem encodeList_inj : ∀ {l1 l2 : List Nat},
    encodeList l1 = encodeList l2 → l1 = l2
  | [], [], _ => rfl
  | [], _ :: _, h => by simp [encodeList] at h
  | _ :: _, [], h => by simp [encodeList] at h
  | a :: l1, b :: l2, h => by
      simp only [encodeList, Nat.add_left_inj, Nat.pair_eq_pair] at h
      rw [h.1, encodeList_inj h.2]

/-- Idealised 64-byte signature scheme: sound and with no cross-message or
cross-key collisions. -/
def E0 : SigScheme :=
  { sign := fun k m => Nat.pair k (encodeList m) :: List.replicate 63 0
    pubOf := fun k => k
    verify := fun p m s =>
      s == Nat.pair p (encodeList m) :: List.replicate 63 0 }

theorem E0_sign_length (k : Nat) (m : List Nat) :
    (E0.sign k m).length = SIGNATURE_LENGTH := by
  simp [E0, SIGNATURE_LENGTH]

theorem E0_roundtrip (k : Nat) (m : List Nat) :
    E0.verify (E0.pubOf k) m (E0.sign k m) = true := by
  simp [E0]

theorem E0_only_signed (k : Nat) (m m' : List Nat)
    (h : E0.verify (E0.pubOf k) m' (E0.sign k m) = true) : m' = m := by
  simp only [E0, beq_iff_eq, List.cons.injEq, Nat.pair_eq_pair] at h
  exact (encodeList_inj h.1.2).symm

/-- Degenerate scheme whose signature is the one-byte message length. -/
def Esim : SigScheme :=
  { sign := fun _ m => [m.length]
    pubOf := fun k => k
    verify := fun _ _ _ => false }

/-! ### Concrete values used by the claim theorems -/

/-- A freshly constructed, never-signed transaction record: its signature
field is the empty byte vector. -/
def unsignedTxn : Txn :=
  { id := zeroHash
    sender := zeroHash
    recipient := zeroHash
    amount := 0
    timestamp := 0
    signature := [] }

/-- A batch holding a single unsigned transaction. -/
def batch1 : Txns :=
  { txns := [unsignedTxn], merkle_root := zeroHash }

/-- A record that already carries a (one-byte) signature value at signing
time. -/
def presignedTxn : Txn :=
  { unsignedTxn with signature := [5] }

def leafA : Hash := ⟨List.replicate HASH_SIZE 1, List.length_replicate _ _⟩

def leafB : Hash := ⟨List.replicate HASH_SIZE 2, List.length_replicate _ _⟩

def leafC : Hash := ⟨List.replicate HASH_SIZE 3, List.length_replicate _ _⟩

/-- Concrete 32-byte-output hash oracle that keeps bytes 32..63 of its
input; it separates the source's root from the specified root. -/
def Hdrop : List Nat → Hash := fun bs =>
  ⟨(bs.drop HASH_SIZE).takeD HASH_SIZE 0, List.takeD_length _ _ _⟩

/-- Constant hash oracle, enough for witnesses whose conclusion does not
inspect digests. -/
def H0 : List Nat → Hash := fun _ => zeroHash

/-! ### The claims -/

/-- C1: the batch-level `Txns::verify` is claimed to return `Valid` iff
every contained transaction verifies, `Invalid` e.g. on a batch with an
unsigned transaction.  The source's body is the constant `Valid::Valid`:
on a batch whose only transaction is unsigned (which no key can verify —
`Txn::verify` does not even return `Valid` on it, it panics), the batch
still reports `Valid`. -/
theorem C1_batch_verify_is_stub :
    Txns.verify batch1 = Valid.Valid ∧
      ∀ (E : SigScheme) (key : Nat),
        Txn.verify E unsignedTxn key ≠ some Valid.Valid := by
  refine ⟨rfl, ?_⟩
  intro E key h
  simp [Txn.verify, unsignedTxn, SIGNATURE_LENGTH] at h

/-- C2, counterexample: verifying an unsigned transaction (empty signature,
structurally malformed) does not return `Invalid` — `Signature::from_bytes`
fails and the `.expect("Invalid signature")` panics (modelled `none`). -/
theorem C2_cex : Txn.verify E0 unsignedTxn 0 = none := by
  simp [Txn.verify, unsignedTxn, SIGNATURE_LENGTH]

/-- C2, amended: for every transaction and key, verification with a
structurally malformed signature (any byte length other than 64, including
the empty signature) panics instead of returning `Invalid`; only
structurally well-formed signatures reach the `Valid`/`Invalid` outcome. -/
theorem C2_malformed_sig_panics (E : SigScheme) (t : Txn) (key : Nat)
    (h : t.signature.length ≠ SIGNATURE_LENGTH) :
    Txn.verify E t key = none := by
  simp [Txn.verify, h]

theorem C2_malformed_sig_panics_witness :
    Txn.verify E0 { unsignedTxn with signature := [1, 2, 3] } 0 = none :=
  C2_malformed_sig_panics E0 { unsignedTxn with signature := [1, 2, 3] } 0
    (by decide)

/-- The reduction on a three-leaf level, as the source computes it: the
pair-combination buffer duplicates the left node, so every level collapses
to its first node's self-concatenation. -/
theorem calc_merkle_root_r_three (H : List Nat → Hash) (a b c : Hash) :
    Txns.calc_merkle_root_r H [a, b, c] =
      some (H ((H (a.val ++ a.val)).val ++ (H (a.val ++ a.val)).val)) := by
  rw [calc_merkle_root_r_cons_cons]
  have hp : padEven [a, b, c] = [a, b, c, c] := by
    simp [padEven]
  rw [hp]
  simp only [combineLevel, concatPair]
  rw [calc_merkle_root_r_cons_cons]
  simp [padEven, combineLevel, concatPair, calc_merkle_root_r_singleton]

/-- C3: for the ordered leaves `[A, B, C]` the claimed root is
`hash(hash(A‖B) ‖ hash(C‖C))`.  The source's copy loop fills both halves of
the pair buffer from `leaves[i]`, so the computed root is
`hash(hash(A‖A) ‖ hash(A‖A))`; at this concrete input the two differ. -/
theorem C3_three_leaf_root_diverges :
    Txns.calc_merkle_root_r Hdrop [leafA, leafB, leafC] = some leafA ∧
      Hdrop ((Hdrop (leafA.val ++ leafB.val)).val ++
        (Hdrop (leafC.val ++ leafC.val)).val) = leafC ∧
      leafA ≠ leafC := by
  refine ⟨?_, by decide, by decide⟩
  rw [calc_merkle_root_r_three]
  decide

/-- Modelled from the spec: the canonical encoding of a transaction record
with the signature field entirely omitted from the byte sequence (spec
sections 4.1 and 4.4); the source has no such encoder — `sign` serializes
the whole record, signature field included. -/
def encodeTxnSigOmitted (t : Txn) : List Nat :=
  t.id.val ++ t.sender.val ++ t.recipient.val ++ encLE 8 t.amount ++
    encLE 16 t.timestamp

set_option maxRecDepth 4096 in
/-- C4, counterexample: on a record whose signature field is non-empty at
signing time, `sign` does not sign the signature-omitted encoding — the
signed bytes include the current signature field, so the stored signature
differs from the claimed one. -/
theorem C4_cex :
    Txn.sign Esim presignedTxn 0 ≠
      { presignedTxn with
          signature := Esim.sign 0 (encodeTxnSigOmitted presignedTxn) } := by
  decide

/-- C4, amended: `sign` signs the serialization of the record as it
currently is, signature field included; when the signature field is empty
at signing time (the freshly-constructed case) those bytes are exactly the
signature-emptied encoding that `verify` recomputes. -/
theorem C4_sign_payload (E : SigScheme) (k : Nat) (t : Txn)
    (h : t.signature = []) :
    (Txn.sign E t k).signature =
      E.sign k (encodeTxn { t with signature := [] }) := by
  rw [txn_set_sig_self h]
  rfl

theorem C4_sign_payload_witness :
    (Txn.sign E0 unsignedTxn 0).signature =
      E0.sign 0 (encodeTxn { unsignedTxn with signature := [] }) :=
  C4_sign_payload E0 0 unsignedTxn rfl

/-- C5: signing a freshly constructed record (empty signature field) with a
keypair and verifying with the matching public key returns `Valid`.  The
hypotheses are the properties of the real ed25519 scheme the source relies
on: signatures are 64 bytes (so `Signature::from_bytes` succeeds) and a
signature verifies against the bytes it signed. -/
theorem C5_sign_then_verify (E : SigScheme)
    (hlen : ∀ k m, (E.sign k m).length = SIGNATURE_LENGTH)
    (hround : ∀ k m, E.verify (E.pubOf k) m (E.sign k m) = true)
    (k : Nat) (t : Txn) (hfresh : t.signature = []) :
    Txn.verify E (Txn.sign E t k) (E.pubOf k) = some Valid.Valid := by
  obtain ⟨i, sn, rc, am, ts, sig⟩ := t
  simp only at hfresh
  subst hfresh
  simp [Txn.verify, Txn.sign, hlen, hround]

theorem C5_witness :
    Txn.verify E0 (Txn.sign E0 unsignedTxn 7) (E0.pubOf 7) =
      some Valid.Valid :=
  C5_sign_then_verify E0 E0_sign_length E0_roundtrip 7 unsignedTxn rfl

/-- C6: mutating the `amount` field of a signed transaction (storing a
different `f64` bit pattern) and verifying against the original signer's
public key yields `Invalid`.  The hypotheses are ed25519's properties: 64
byte signatures, and a signature verifies only the exact bytes that were
signed. -/
theorem C6_tamper_invalid (E : SigScheme)
    (hlen : ∀ k m, (E.sign k m).length = SIGNATURE_LENGTH)
    (honly : ∀ k m m', E.verify (E.pubOf k) m' (E.sign k m) = true → m' = m)
    (k : Nat) (t : Txn) (a' : Nat)
    (h1 : t.amount < 2 ^ 64) (h2 : a' < 2 ^ 64) (h3 : a' ≠ t.amount) :
    Txn.verify E { Txn.sign E t k with amount := a' } (E.pubOf k) =
      some Valid.Invalid := by
  have hne := encodeTxn_ne_of_amount_ne (t := t) [] h1 h2 h3
  obtain ⟨i, sn, rc, am, ts, sig⟩ := t
  have hb : E.verify (E.pubOf k)
      (encodeTxn (Txn.mk i sn rc a' ts []))
      (E.sign k (encodeTxn (Txn.mk i sn rc am ts sig))) = false := by
    rcases Bool.eq_false_or_eq_true (E.verify (E.pubOf k)
        (encodeTxn (Txn.mk i sn rc a' ts []))
        (E.sign k (encodeTxn (Txn.mk i sn rc am ts sig)))) with h | h
    · exact absurd (honly k _ _ h) hne
    · exact h
  simp [Txn.verify, Txn.sign, hlen, hb]

theorem C6_witness :
    Txn.verify E0 { Txn.sign E0 unsignedTxn 3 with amount := 1 }
      (E0.pubOf 3) = some Valid.Invalid :=
  C6_tamper_invalid E0 E0_sign_length E0_only_signed 3 unsignedTxn 1
    (by decide) (by decide) (by decide)

/-- C7: `sign` mutates only the record's signature field — `id`, `sender`,
`recipient`, `amount` and `timestamp` are untouched, and in particular the
`id` digest is never recomputed by signing. -/
theorem C7_sign_frame (E : SigScheme) (k : Nat) (t : Txn) :
    (Txn.sign E t k).id = t.id ∧ (Txn.sign E t k).sender = t.sender ∧
      (Txn.sign E t k).recipient = t.recipient ∧
      (Txn.sign E t k).amount = t.amount ∧
      (Txn.sign E t k).timestamp = t.timestamp :=
  ⟨rfl, rfl, rfl, rfl, rfl⟩

/-- C8: the Merkle root computation is undefined exactly on the empty
batch — the recursive reduction reaches its panic branch (no digest is
returned) iff there are zero records, so well-definedness needs the
non-emptiness precondition and nothing more. -/
theorem C8_root_undefined_iff_empty (H : List Nat → Hash) (ts : Txns) :
    Txns.calc_merkle_root H ts = none ↔ ts.txns = [] := by
  constructor
  · intro h
    by_contra hcne
    have hmap : ts.txns.map Txn.id ≠ [] := by simpa using hcne
    have hnn := calc_merkle_root_r_ne_none H (ts.txns.map Txn.id).length
      (ts.txns.map Txn.id) rfl hmap
    unfold Txns.calc_merkle_root at h
    rcases he : Txns.calc_merkle_root_r H (ts.txns.map Txn.id) with _ | r
    · exact hnn he
    · rw [he] at h
      simp at h
  · intro h
    unfold Txns.calc_merkle_root
    rw [h]
    simp [calc_merkle_root_r_nil]

/-- C9: two non-empty batches with the same number of records and equal
first `id` digests have equal Merkle roots — the pair-combination buffer is
filled from the left node twice, so nothing after the first leaf reaches
the root. -/
theorem C9_root_ignores_all_but_first (H : List Nat → Hash) (b1 b2 : Txns)
    (_hne : b1.txns ≠ []) (hlen : b1.txns.length = b2.txns.length)
    (hhead : b1.txns.head?.map Txn.id = b2.txns.head?.map Txn.id) :
    (Txns.calc_merkle_root H b1).map Txns.merkle_root =
      (Txns.calc_merkle_root H b2).map Txns.merkle_root := by
  have hr : Txns.calc_merkle_root_r H (b1.txns.map Txn.id) =
      Txns.calc_merkle_root_r H (b2.txns.map Txn.id) := by
    apply calc_merkle_root_r_eq_of_head_eq H (b1.txns.map Txn.id).length
    · rfl
    · simp [hlen]
    · simpa using hhead
  unfold Txns.calc_merkle_root
  rw [hr]
  rcases he : Txns.calc_merkle_root_r H (b2.txns.map Txn.id) with _ | r <;>
    simp

/-- Two-record batches agreeing in count and first id, differing in the
second record's id. -/
def batchW1 : Txns :=
  { txns := [unsignedTxn, { unsignedTxn with id := leafB }]
    merkle_root := zeroHash }

def batchW2 : Txns :=
  { txns := [unsignedTxn, { unsignedTxn with id := leafC }]
    merkle_root := zeroHash }

theorem C9_witness :
    (Txns.calc_merkle_root H0 batchW1).map Txns.merkle_root =
      (Txns.calc_merkle_root H0 batchW2).map Txns.merkle_root :=
  C9_root_ignores_all_but_first H0 batchW1 batchW2 (by decide) (by decide)
    (by decide)

/-- C10: every constructor stamps `Instant::now().elapsed().as_millis()` —
the elapsed milliseconds of an instant taken at that same moment, not
wall-clock time.  Whenever the runtime lets less than one millisecond pass
between the `now()` and the `elapsed()` call (the "same moment"), the
stored timestamp of a new `User`, `Txn`, `Block` and `Blockchain` is 0. -/
theorem C10_constructor_timestamps (H : List Nat → Hash)
    (e1 e2 e3 e4 n1 n3 : Nat) (pk uid : List Nat) (s r : User)
    (amount : Nat) (ph : Hash) (ts : Txns) (index : Nat)
    (h1 : e1 < 1000000) (h2 : e2 < 1000000) (h3 : e3 < 1000000)
    (h4 : e4 < 1000000) :
    (User.new H e1 n1 pk uid).timestamp = 0 ∧
      (Txn.new H e2 s r amount).timestamp = 0 ∧
      (Block.new H e3 n3 ph ts index).timestamp = 0 ∧
      (Blockchain.new e4).timestamp = 0 := by
  refine ⟨?_, ?_, ?_, ?_⟩
  · simp [User.new, User.hashOp, instantNowElapsedMillis,
      Nat.div_eq_of_lt h1]
  · simp [Txn.new, Txn.hashOp, instantNowElapsedMillis, Nat.div_eq_of_lt h2]
  · simp [Block.new, Block.hashOp, instantNowElapsedMillis,
      Nat.div_eq_of_lt h3]
  · simp [Blockchain.new, instantNowElapsedMillis, Nat.div_eq_of_lt h4]

theorem C10_witness :
    (User.new H0 0 0 [] []).timestamp = 0 ∧
      (Txn.new H0 0 (User.new H0 0 0 [] []) (User.new H0 0 0 [] [])
        0).timestamp = 0 ∧
      (Block.new H0 0 0 zeroHash Txns.new 0).timestamp = 0 ∧
      (Blockchain.new 0).timestamp = 0 :=
  C10_constructor_timestamps H0 0 0 0 0 0 0 [] [] (User.new H0 0 0 [] [])
    (User.new H0 0 0 [] []) 0 zeroHash Txns.new 0 (by decide) (by decide)
    (by decide) (by decide)

end Blockchain
